import Mathlib

/-!
Verification development for the `wrf_hydro_py` ioutils module.

The two core components embedded here are:
* `open_nwmdataset` (the Forecast Assembler): groups per-file datasets by
  their `reference_time` coordinate and concatenates them along the
  time and reference_time axes;
* `nwm_forcing_to_ldasin` (the Forcing Relocator): walks a source tree of
  day directories, parses init-hour and cast-value integers out of each
  forcing filename, and emits each file into a destination tree keyed by
  init time, with the filename keyed by valid time.

Filesystem effects are modelled as an explicit trace of actions together
with the set of destination entries that exist; calendar arithmetic uses
exact civil-calendar day numbering (days since 1970-01-01).
-/

namespace WrfHydro

/-! ## String utilities (embedding Python str primitives) -/

/-- Code-point lexicographic comparison of character lists; embeds the
Python `str` ordering used by `sorted`. -/
def charListLe : List Char → List Char → Bool
  | [], _ => true
  | _ :: _, [] => false
  | a :: as, b :: bs =>
    if a.toNat < b.toNat then true
    else if b.toNat < a.toNat then false
    else charListLe as bs

def strLe (a b : String) : Bool := charListLe a.toList b.toList

/-- `containsSub s sub` embeds the Python substring test `sub in s`. -/
def containsSubList (sub : List Char) : List Char → Bool
  | [] => sub.isEmpty
  | c :: cs => sub.isPrefixOf (c :: cs) || containsSubList sub cs

def strContains (s sub : String) : Bool :=
  containsSubList sub.toList s.toList

/-- Embeds the Python prefix test `s.startswith(pre)`. -/
def strStartsWith (s pre : String) : Bool :=
  pre.toList.isPrefixOf s.toList

/-- Embeds Python `s.split(sep)` for a nonempty separator: split at every
non-overlapping occurrence, left to right, keeping empty fields.  The
fuel argument only bounds the recursion depth (each step consumes at
least one character, so `s.length + 1` is always enough) and keeps the
definition structurally recursive. -/
def pySplitFuel : Nat → List Char → List Char → List (List Char)
  | 0, _, _ => [[]]
  | fuel + 1, sep, s =>
    match s with
    | [] => [[]]
    | c :: cs =>
      if sep.isPrefixOf (c :: cs) ∧ sep ≠ [] then
        [] :: pySplitFuel fuel sep (List.drop (sep.length - 1) cs)
      else
        match pySplitFuel fuel sep cs with
        | [] => [[c]]
        | fld :: rest => (c :: fld) :: rest

def pySplit (s sep : String) : List String :=
  (pySplitFuel (s.length + 1) sep.toList s.toList).map (fun cs => ⟨cs⟩)

/-- Stable insertion into a list sorted by a string key. -/
def insertSorted {α : Type} (key : α → String) (x : α) : List α → List α
  | [] => [x]
  | y :: ys => if strLe (key x) (key y) then x :: y :: ys else y :: insertSorted key x ys

/-- Stable sort by a string key; embeds Python `sorted` (by path name). -/
def sortByName {α : Type} (key : α → String) (l : List α) : List α :=
  l.foldr (insertSorted key) []

/-- Numeric value of a decimal digit character. -/
def digitVal (c : Char) : Nat := c.toNat - 48

/-- Value of a list of decimal digit characters; embeds `int(...)` applied
to a digit run. -/
def parseDigits (cs : List Char) : Nat :=
  cs.foldl (fun n c => 10 * n + digitVal c) 0

/-- First maximal run of decimal digits in a character list, as a number.
Embeds `int(re.findall(r'\d+', s)[0])`: `none` corresponds to the
`IndexError` raised when the field holds no digits. -/
def firstDigitRunList : List Char → Option Nat
  | [] => none
  | c :: rest =>
    if c.isDigit then some (parseDigits (c :: rest.takeWhile Char.isDigit))
    else firstDigitRunList rest

def firstDigitRun (s : String) : Option Nat := firstDigitRunList s.toList

/-! ## Glob matching

Embeds the `fnmatch`-style matching used by `pathlib.Path.glob` for flat
(single-component) patterns: `*` matches any run of characters, `?` any
single character, and `[...]` a character class with ranges and `!`
negation. -/

/-- Split a character class body at its closing bracket: returns the class
contents and the remainder of the pattern. -/
def splitClass : List Char → Option (List Char × List Char)
  | [] => none
  | c :: cs =>
    if c = ']' then some ([], cs)
    else match splitClass cs with
      | none => none
      | some (body, rest) => some (c :: body, rest)

/-- Does character `c` match the (non-negated) class body? -/
def classMatch (c : Char) : List Char → Bool
  | a :: '-' :: b :: rest =>
    (decide (a.toNat ≤ c.toNat) && decide (c.toNat ≤ b.toNat)) || classMatch c rest
  | a :: rest => a = c || classMatch c rest
  | [] => false

/-- Class match including leading `!` negation. -/
def classMatchFull (c : Char) (body : List Char) : Bool :=
  match body with
  | '!' :: rest => ! classMatch c rest
  | _ => classMatch c body

/-- Fuel-bounded glob matching.  Every recursive call strictly decreases
`p.length + s.length`, so fuel `p.length + s.length + 1` always
suffices; the fuel only keeps the definition structurally recursive. -/
def globFuel : Nat → List Char → List Char → Bool
  | 0, _, _ => false
  | fuel + 1, p, s =>
    match p, s with
    | [], [] => true
    | [], _ :: _ => false
    | '*' :: ps, [] => globFuel fuel ps []
    | '*' :: ps, c :: cs => globFuel fuel ps (c :: cs) || globFuel fuel ('*' :: ps) cs
    | '?' :: ps, _ :: cs => globFuel fuel ps cs
    | '?' :: _, [] => false
    | '[' :: ps, c :: cs =>
      (match splitClass ps with
       | none => false
       | some (body, rest) => classMatchFull c body && globFuel fuel rest cs)
    | '[' :: _, [] => false
    | p0 :: ps, c :: cs => p0 = c && globFuel fuel ps cs
    | _ :: _, [] => false

def globMatch (pat s : String) : Bool :=
  globFuel (pat.length + s.length + 1) pat.toList s.toList

/-! ## Civil calendar arithmetic

Exact day numbering (days since 1970-01-01) for the proleptic Gregorian
calendar, used to embed `datetime.datetime` plus `datetime.timedelta`
arithmetic on whole hours. -/

def isLeapYear (y : Int) : Bool :=
  Int.emod y 4 = 0 && (Int.emod y 100 ≠ 0 || Int.emod y 400 = 0)

def daysInMonth (y : Int) (m : Nat) : Nat :=
  match m with
  | 1 => 31
  | 2 => if isLeapYear y then 29 else 28
  | 3 => 31
  | 4 => 30
  | 5 => 31
  | 6 => 30
  | 7 => 31
  | 8 => 31
  | 9 => 30
  | 10 => 31
  | 11 => 30
  | 12 => 31
  | _ => 0

/-- Day number (days since 1970-01-01) of a civil date. -/
def daysFromCivil (y m d : Int) : Int :=
  let y1 : Int := if m ≤ 2 then y - 1 else y
  let era : Int := Int.ediv y1 400
  let yoe : Int := y1 - era * 400
  let mp : Int := Int.emod (m + 9) 12
  let doy : Int := Int.ediv (153 * mp + 2) 5 + d - 1
  let doe : Int := yoe * 365 + Int.ediv yoe 4 - Int.ediv yoe 100 + doy
  era * 146097 + doe - 719468

/-- Civil date `(year, month, day)` of a day number. -/
def civilFromDays (z : Int) : Int × Int × Int :=
  let z1 := z + 719468
  let era := Int.ediv z1 146097
  let doe := z1 - era * 146097
  let yoe := Int.ediv (doe - Int.ediv doe 1460 + Int.ediv doe 36524 - Int.ediv doe 146096) 365
  let y1 := yoe + era * 400
  let doy := doe - (365 * yoe + Int.ediv yoe 4 - Int.ediv yoe 100)
  let mp := Int.ediv (5 * doy + 2) 153
  let d := doy - Int.ediv (153 * mp + 2) 5 + 1
  let m := if mp < 10 then mp + 3 else mp - 9
  (if m ≤ 2 then y1 + 1 else y1, m, d)

def pad2 (n : Int) : String := if n < 10 then "0" ++ toString n else toString n

def pad4 (n : Int) : String :=
  if n < 10 then "000" ++ toString n
  else if n < 100 then "00" ++ toString n
  else if n < 1000 then "0" ++ toString n
  else toString n

/-- `strftime('%Y%m%d%H')` of an instant given in whole hours since
1970-01-01T00:00. -/
def fmtYMDH (t : Int) : String :=
  let d := Int.ediv t 24
  let h := Int.emod t 24
  match civilFromDays d with
  | (y, m, dd) => pad4 y ++ pad2 m ++ pad2 dd ++ pad2 h

/-- Embeds `datetime.datetime.strptime(name, 'nwm.%Y%m%d')` on its
`nwm.` + 8-digit domain, returning the day number of the parsed date;
`none` corresponds to the `ValueError` raised on a mismatch. -/
def parseDay (name : String) : Option Int :=
  let cs := name.toList
  if cs.take 4 = ['n', 'w', 'm', '.'] then
    let rest := cs.drop 4
    if rest.length = 8 ∧ rest.all Char.isDigit then
      let y : Int := Int.ofNat (parseDigits (rest.take 4))
      let m : Nat := parseDigits ((rest.drop 4).take 2)
      let d : Nat := parseDigits (rest.drop 6)
      if 1 ≤ y ∧ 1 ≤ m ∧ m ≤ 12 ∧ 1 ≤ d ∧ d ≤ daysInMonth y m then
        some (daysFromCivil y m d)
      else none
    else none
  else none

/-! ## Forecast Assembler (`open_nwmdataset`)

A `Dataset` models the xarray dataset opened from one file: its
`reference_time` coordinate values, its `time` coordinate values, and the
data-variable payload along the time axis.  Instants are integers
(nanoseconds since the epoch for `reference_time`, so the sentinel
`np.datetime64('1970-01-01T00:00:00')` is `0`). -/

structure Dataset where
  reference_time : List Int
  time : List Int
  vals : List Int
deriving Repr, DecidableEq

/-- The fixed sentinel instant `1970-01-01T00:00:00`. -/
def epochSentinel : Int := 0

/-- Embeds the `forecast` branch: when `forecast` is false the dataset's
`reference_time` coordinate values are overwritten with the single
sentinel instant. -/
def setSentinel (forecast : Bool) (ds : Dataset) : Dataset :=
  if forecast then ds else { ds with reference_time := [epochSentinel] }

/-- Embeds the dict update `ds_dict[ref_time].append(ds)` /
`ds_dict[ref_time] = [ds]`: append to an existing slot, else add a new
key at the end (Python dicts preserve insertion order). -/
def dictInsert (r : Int) (ds : Dataset) :
    List (Int × List Dataset) → List (Int × List Dataset)
  | [] => [(r, [ds])]
  | (k, v) :: rest =>
    if k = r then (k, v ++ [ds]) :: rest else (k, v) :: dictInsert r ds rest

/-- The grouping loop of `open_nwmdataset`: for each file, apply the
forecast normalization, read `reference_time.values[0]` (`none` models
the `IndexError` on an empty coordinate), and insert into the dict. -/
def buildDictAux (forecast : Bool) (acc : List (Int × List Dataset)) :
    List Dataset → Option (List (Int × List Dataset))
  | [] => some acc
  | ds0 :: rest =>
    match (setSentinel forecast ds0).reference_time.head? with
    | none => none
    | some r => buildDictAux forecast (dictInsert r (setSentinel forecast ds0) acc) rest

/-- `xr.concat(group, dim='time', coords='minimal')`: data and the `time`
coordinate are concatenated; the `reference_time` coordinate (which lacks
the `time` dimension) must agree across members (else xarray raises) and
is taken from the first member. -/
def concatTime : List Dataset → Option Dataset
  | [] => none
  | d :: rest =>
    if rest.all (fun x => x.reference_time = d.reference_time) then
      some ⟨d.reference_time, (d :: rest).flatMap Dataset.time,
            (d :: rest).flatMap Dataset.vals⟩
    else none

/-- Concatenate each group along the time axis, in dict (first-seen key)
order. -/
def concatGroups : List (Int × List Dataset) → Option (List Dataset)
  | [] => some []
  | kv :: rest =>
    match concatTime kv.2, concatGroups rest with
    | some dsc, some l => some (dsc :: l)
    | _, _ => none

/-- `xr.concat(forecast_list, dim='reference_time', coords='minimal')`:
`reference_time` and data are concatenated; the `time` coordinate must
agree across the groups and is taken from the first (`none` also models
the error raised by `xr.concat` on an empty list). -/
def concatRef : List Dataset → Option Dataset
  | [] => none
  | d :: rest =>
    if rest.all (fun x => x.time = d.time) then
      some ⟨(d :: rest).flatMap Dataset.reference_time, d.time,
            (d :: rest).flatMap Dataset.vals⟩
    else none

/-- The Forecast Assembler.  The `chunks` hint only re-chunks the dask
arrays at the end and does not alter coordinate values, so re-chunking is
the identity on this model. -/
def open_nwmdataset (paths : List Dataset) (forecast : Bool) : Option Dataset :=
  (buildDictAux forecast [] paths).bind fun dict =>
    (concatGroups dict).bind fun fl => concatRef fl

/-! ## Forcing Relocator (`nwm_forcing_to_ldasin`) -/

/-- A member subdirectory of a day directory (e.g. `forcing_medium_range`):
its name, whether it is a directory, and the names of the files inside,
in filesystem (glob-iteration) order. -/
structure MemberDir where
  name : String
  isDir : Bool
  files : List String
deriving Repr, DecidableEq

/-- A day directory (e.g. `nwm.20200601`) and its entries. -/
structure DailyDir where
  name : String
  members : List MemberDir
deriving Repr, DecidableEq

/-- The source argument: either a single root directory (with an existence
flag and its entries) or an explicit list of day directories, each with
its own existence flag. -/
inductive NwmSource where
  | single (present : Bool) (entries : List DailyDir)
  | dirList (dirs : List (Bool × DailyDir))
deriving Repr, DecidableEq

/-- Errors raised by the relocator, mirroring the Python exceptions. -/
inductive RelocError where
  | fileNotFound (msg : String)
  | strptimeError
  | indexError
  | unsupportedForcType
  | destExists
deriving Repr, DecidableEq

/-- Observable filesystem effects, in execution order.  A `place` records
a destination entry (directory name and file name relative to the
destination root) together with the source file it links to or copies
(day directory, member directory, file name) and the copy flag. -/
inductive Action where
  | mkdirDest
  | warnNoDays
  | mkdirInit (dirName : String)
  | place (dirName fileName : String) (srcDay srcMember srcFile : String) (copied : Bool)
deriving Repr, DecidableEq

/-- Result of a (partial) run: the actions performed, the set of existing
destination entries (as `dir/file` strings), and the error that aborted
the run, if any. -/
structure Out where
  acts : List Action
  st : List String
  err : Option RelocError
deriving Repr, DecidableEq

/-- Embeds the `forcing_` normalization:
`if 'forcing_' in range: range = range.split('forcing_')[1]`. -/
def normRange (range : String) : String :=
  if strContains range "forcing_" then ((pySplit range "forcing_").drop 1).headD ""
  else range

/-- Embeds the Hawaii suffix handling:
`range.split('_hawaii')[0] if '_hawaii' in range else range`. -/
def reRange (range : String) : String :=
  if strContains range "_hawaii" then (pySplit range "_hawaii").headD "" else range

/-- `int(re.findall(r'\d+', fname.split('.')[i])[0])` as an `Option`:
`none` models the `IndexError` raised either on a missing dot-field or on
a field with no digits. -/
def fieldNat (fname : String) (i : Nat) : Option Nat :=
  match (pySplit fname ".").get? i with
  | none => none
  | some fld => firstDigitRun fld

/-- The valid (wall-clock) time of a forcing file, in hours since the
epoch: `init_hour - cast_hour` from the day when the range category
contains `analysis_assim`, `init_hour + cast_hour` otherwise. -/
def validTime (range : String) (theDay : Int) (initHour castHour : Nat) : Int :=
  if strContains range "analysis_assim" then
    24 * theDay + ((initHour : Int) - castHour)
  else
    24 * theDay + ((initHour : Int) + castHour)

/-- The destination filename: `valid_time` formatted per `forc_type`
(`'%Y%m%d%H.LDASIN_DOMAIN1'` for 1, `'%Y%m%d%H00.LDASIN_DOMAIN1'` for 2;
only called with `forcType` 1 or 2). -/
def ldasinName (range : String) (forcType : Int) (theDay : Int)
    (initHour castHour : Nat) : String :=
  if forcType = 1 then fmtYMDH (validTime range theDay initHour castHour) ++ ".LDASIN_DOMAIN1"
  else fmtYMDH (validTime range theDay initHour castHour) ++ "00.LDASIN_DOMAIN1"

/-- Process one matching forcing file, embedding the body of the innermost
loop: parse `init_hour` from dot-field 1, create the init-time directory,
parse `cast_hour` from dot-field 4, apply the `analysis_assim` sign
convention, format the destination name per `forc_type`, and copy or
symlink.  `theDay` is the day number parsed from the day directory. -/
def processFile (range : String) (forcType : Int) (copy : Bool) (theDay : Int)
    (dayName memberName fname : String) (st : List String) : Out :=
  match fieldNat fname 1 with
  | none => ⟨[], st, some .indexError⟩
  | some initHour =>
    let initDirName := fmtYMDH (24 * theDay + initHour)
    match fieldNat fname 4 with
    | none => ⟨[.mkdirInit initDirName], st, some .indexError⟩
    | some castHour =>
      if forcType = 1 ∨ forcType = 2 then
        let outName := ldasinName range forcType theDay initHour castHour
        let destPath := initDirName ++ "/" ++ outName
        if copy then
          ⟨[.mkdirInit initDirName,
            .place initDirName outName dayName memberName fname true],
           if destPath ∈ st then st else destPath :: st, none⟩
        else
          if destPath ∈ st then
            ⟨[.mkdirInit initDirName], st, some .destExists⟩
          else
            ⟨[.mkdirInit initDirName,
              .place initDirName outName dayName memberName fname false],
             destPath :: st, none⟩
      else ⟨[.mkdirInit initDirName], st, some .unsupportedForcType⟩

/-- Sequence the result of one loop iteration with the rest of the loop:
a raised exception aborts (propagates out of) the whole call, otherwise
the loop continues on the updated filesystem state. -/
def seqOut (o : Out) (k : List String → Out) : Out :=
  match o.err with
  | some e => ⟨o.acts, o.st, some e⟩
  | none => ⟨o.acts ++ (k o.st).acts, (k o.st).st, (k o.st).err⟩

/-- The common skeleton of the three nested `for` loops: run `step` on
each element in order, threading the state, aborting on the first
exception. -/
def foldProcess {β : Type} (step : β → List String → Out) :
    List β → List String → Out
  | [], st => ⟨[], st, none⟩
  | b :: rest, st => seqOut (step b st) (foldProcess step rest)

/-- Process the matching files of one member directory in order. -/
def processFiles (range : String) (forcType : Int) (copy : Bool) (theDay : Int)
    (dayName memberName : String) (files : List String) (st : List String) : Out :=
  foldProcess (processFile range forcType copy theDay dayName memberName) files st

/-- Process one member directory: skip non-directories, then glob for
`*<reRange>.forcing.*` inside it. -/
def processMember (range : String) (forcType : Int) (copy : Bool) (theDay : Int)
    (dayName : String) (m : MemberDir) (st : List String) : Out :=
  if m.isDir then
    processFiles range forcType copy theDay dayName m.name
      (m.files.filter (fun f => globMatch ("*" ++ reRange range ++ ".forcing.*") f)) st
  else ⟨[], st, none⟩

def processMembers (range : String) (forcType : Int) (copy : Bool) (theDay : Int)
    (dayName : String) (members : List MemberDir) (st : List String) : Out :=
  foldProcess (processMember range forcType copy theDay dayName) members st

/-- Process one day directory: parse its date with
`strptime('nwm.%Y%m%d')`, then walk its `forcing_<range>` member
directories sorted by name. -/
def processDay (range : String) (forcType : Int) (copy : Bool)
    (dd : DailyDir) (st : List String) : Out :=
  match parseDay dd.name with
  | none => ⟨[], st, some .strptimeError⟩
  | some theDay =>
    processMembers range forcType copy theDay dd.name
      (sortByName MemberDir.name
        (dd.members.filter (fun m => globMatch ("forcing_" ++ range) m.name))) st

def processDays (range : String) (forcType : Int) (copy : Bool)
    (days : List DailyDir) (st : List String) : Out :=
  foldProcess (processDay range forcType copy) days st

/-- The day directories the discovery phase iterates over: the listed
directories in the given order (list mode), or the entries of the root
matching `nwm.*[0-9]` sorted by name (single-root mode). -/
def sourceDays : NwmSource → List DailyDir
  | .dirList dirs => dirs.map (·.2)
  | .single _ entries =>
    sortByName DailyDir.name (entries.filter (fun d => globMatch "nwm.*[0-9]" d.name))

/-- The Forcing Relocator.  `destPresent` tells whether the destination
root already exists (it is created otherwise); `pre` is the set of
destination entries that already exist under it. -/
def nwm_forcing_to_ldasin (src : NwmSource) (destPresent : Bool) (range0 : String)
    (copy : Bool) (forcType : Int) (pre : List String) : Out :=
  let range := normRange range0
  let acts0 : List Action := if destPresent then [] else [.mkdirDest]
  match src with
  | .dirList dirs =>
    if dirs.all (·.1) then
      let o := processDays range forcType copy (sourceDays src) pre
      ⟨acts0 ++ o.acts, o.st, o.err⟩
    else
      ⟨acts0, pre,
       some (.fileNotFound "Some requested daily nwm forcing source dirs do not exist")⟩
  | .single present _ =>
    if present then
      let days := sourceDays src
      let acts1 : List Action := if days.isEmpty then [.warnNoDays] else []
      let o := processDays range forcType copy days pre
      ⟨acts0 ++ acts1 ++ o.acts, o.st, o.err⟩
    else
      ⟨acts0, pre, some (.fileNotFound "The nwm_forcing_dir does not exist, exiting.")⟩

/-! ## Lemmas: Forecast Assembler -/

/-- Lookup in the reference-time dict. -/
def assocFind (r : Int) : List (Int × List Dataset) → Option (List Dataset)
  | [] => none
  | kv :: rest => if kv.1 = r then some kv.2 else assocFind r rest

/-- The group of datasets stored under key `r` (empty when absent). -/
def assocFindD (r : Int) (d : List (Int × List Dataset)) : List Dataset :=
  (assocFind r d).getD []

/-- The key a dataset is grouped under (`reference_time.values[0]`). -/
def refKeyD (ds : Dataset) : Int := ds.reference_time.headD 0

/-- Distinct values of a list, in first-seen order, appended after `ks`. -/
def firstSeenFrom (ks : List Int) : List Int → List Int
  | [] => ks
  | r :: rs => firstSeenFrom (if r ∈ ks then ks else ks ++ [r]) rs

/-- Distinct values of a list, in first-seen order. -/
def firstSeen (rs : List Int) : List Int := firstSeenFrom [] rs

theorem assocFindD_dictInsert (r k : Int) (ds : Dataset)
    (acc : List (Int × List Dataset)) :
    assocFindD r (dictInsert k ds acc) =
      if k = r then assocFindD r acc ++ [ds] else assocFindD r acc := by
  induction acc with
  | nil =>
    by_cases h : k = r <;> simp [dictInsert, assocFindD, assocFind, h]
  | cons kv rest ih =>
    by_cases h1 : kv.1 = k
    · by_cases h2 : k = r
      · simp [dictInsert, assocFindD, assocFind, h1, h2]
      · have h3 : kv.1 ≠ r := by rw [h1]; exact h2
        simp [dictInsert, assocFindD, assocFind, h1, h2, h3]
    · by_cases h2 : kv.1 = r
      · have h3 : k ≠ r := fun hc => h1 (by rw [h2, hc])
        have h4 : ¬ (r = k) := fun hc => h3 hc.symm
        simp [dictInsert, assocFindD, assocFind, h1, h2, h3, h4]
      · simpa [dictInsert, assocFindD, assocFind, h1, h2] using ih

theorem keys_dictInsert (k : Int) (ds : Dataset) (acc : List (Int × List Dataset)) :
    (dictInsert k ds acc).map Prod.fst =
      if k ∈ acc.map Prod.fst then acc.map Prod.fst else acc.map Prod.fst ++ [k] := by
  induction acc with
  | nil => simp [dictInsert]
  | cons kv rest ih =>
    by_cases h1 : kv.1 = k
    · simp [dictInsert, h1]
    · have : k ≠ kv.1 := fun hc => h1 hc.symm
      by_cases h2 : k ∈ rest.map Prod.fst <;>
        simp [dictInsert, h1, this, h2, ih]

theorem headD_of_head? {l : List Int} {r : Int} (h : l.head? = some r) :
    l.headD 0 = r := by
  cases l with
  | nil => simp at h
  | cons a as => simp at h; simp [h]

theorem buildDictAux_keys (fc : Bool) (l : List Dataset) :
    ∀ acc d, buildDictAux fc acc l = some d →
      d.map Prod.fst =
        firstSeenFrom (acc.map Prod.fst)
          (l.map (fun ds0 => refKeyD (setSentinel fc ds0))) := by
  induction l with
  | nil =>
    intro acc d h
    simp [buildDictAux] at h
    subst h; rfl
  | cons x xs ih =>
    intro acc d h
    simp only [buildDictAux] at h
    cases hx : (setSentinel fc x).reference_time.head? with
    | none => rw [hx] at h; cases h
    | some r =>
      rw [hx] at h
      have hkey : refKeyD (setSentinel fc x) = r := headD_of_head? hx
      have := ih (dictInsert r (setSentinel fc x) acc) d h
      rw [this, keys_dictInsert]
      simp only [List.map_cons, hkey, firstSeenFrom]

/-- Invariant of the reference-time dict: every group is nonempty and
all of its members carry the group key as their first reference time. -/
def DictInv (d : List (Int × List Dataset)) : Prop :=
  ∀ kv ∈ d, kv.2 ≠ [] ∧ ∀ ds ∈ kv.2, ds.reference_time.head? = some kv.1

theorem dictInsert_inv {acc : List (Int × List Dataset)} {k : Int} {ds : Dataset}
    (hacc : DictInv acc) (hds : ds.reference_time.head? = some k) :
    DictInv (dictInsert k ds acc) := by
  induction acc with
  | nil =>
    intro kv hkv
    simp [dictInsert] at hkv
    subst hkv
    exact ⟨by simp, by intro x hx; simp at hx; subst hx; exact hds⟩
  | cons kv0 rest ih =>
    have h0 := hacc kv0 (by simp)
    have hrest : DictInv rest := fun kv hkv => hacc kv (List.mem_cons_of_mem _ hkv)
    intro kv hkv
    by_cases h1 : kv0.1 = k
    · simp only [dictInsert, if_pos h1] at hkv
      rcases List.mem_cons.mp hkv with hkv1 | hkv1
      · subst hkv1
        refine ⟨by simp, ?_⟩
        intro x hx
        rcases List.mem_append.mp hx with hx1 | hx1
        · exact h0.2 x hx1
        · rw [List.mem_singleton.mp hx1, hds, h1]
      · exact hacc kv (List.mem_cons_of_mem _ hkv1)
    · simp only [dictInsert, if_neg h1] at hkv
      rcases List.mem_cons.mp hkv with hkv1 | hkv1
      · subst hkv1; exact h0
      · exact ih hrest kv hkv1

theorem buildDictAux_inv (fc : Bool) (l : List Dataset) :
    ∀ acc d, DictInv acc → buildDictAux fc acc l = some d → DictInv d := by
  induction l with
  | nil =>
    intro acc d hacc h
    simp [buildDictAux] at h
    subst h; exact hacc
  | cons x xs ih =>
    intro acc d hacc h
    simp only [buildDictAux] at h
    cases hx : (setSentinel fc x).reference_time.head? with
    | none => rw [hx] at h; cases h
    | some r =>
      rw [hx] at h
      exact ih _ d (dictInsert_inv hacc hx) h

theorem dictInsert_pred {Q : Dataset → Prop} {acc : List (Int × List Dataset)}
    {k : Int} {ds : Dataset}
    (hacc : ∀ kv ∈ acc, ∀ x ∈ kv.2, Q x) (hds : Q ds) :
    ∀ kv ∈ dictInsert k ds acc, ∀ x ∈ kv.2, Q x := by
  induction acc with
  | nil =>
    intro kv hkv x hx
    simp [dictInsert] at hkv
    subst hkv
    simp at hx
    subst hx; exact hds
  | cons kv0 rest ih =>
    have hrest : ∀ kv ∈ rest, ∀ x ∈ kv.2, Q x :=
      fun kv hkv => hacc kv (List.mem_cons_of_mem _ hkv)
    intro kv hkv x hx
    by_cases h1 : kv0.1 = k
    · simp only [dictInsert, if_pos h1] at hkv
      rcases List.mem_cons.mp hkv with hkv1 | hkv1
      · subst hkv1
        rcases List.mem_append.mp hx with hx1 | hx1
        · exact hacc kv0 (by simp) x hx1
        · rw [List.mem_singleton.mp hx1]; exact hds
      · exact hacc kv (List.mem_cons_of_mem _ hkv1) x hx
    · simp only [dictInsert, if_neg h1] at hkv
      rcases List.mem_cons.mp hkv with hkv1 | hkv1
      · subst hkv1; exact hacc kv0 (by simp) x hx
      · exact ih hrest kv hkv1 x hx

theorem buildDictAux_pred {Q : Dataset → Prop} (fc : Bool) (l : List Dataset) :
    ∀ acc d, (∀ kv ∈ acc, ∀ x ∈ kv.2, Q x) →
      (∀ ds0 ∈ l, Q (setSentinel fc ds0)) →
      buildDictAux fc acc l = some d → ∀ kv ∈ d, ∀ x ∈ kv.2, Q x := by
  induction l with
  | nil =>
    intro acc d hacc _ h
    simp [buildDictAux] at h
    subst h; exact hacc
  | cons x xs ih =>
    intro acc d hacc hl h
    simp only [buildDictAux] at h
    cases hx : (setSentinel fc x).reference_time.head? with
    | none => rw [hx] at h; cases h
    | some r =>
      rw [hx] at h
      exact ih _ d (dictInsert_pred hacc (hl x (by simp)))
        (fun ds0 hds0 => hl ds0 (by simp [hds0])) h

theorem buildDictAux_find (fc : Bool) (l : List Dataset) :
    ∀ acc d, buildDictAux fc acc l = some d → ∀ r,
      assocFindD r d =
        assocFindD r acc ++
          (l.map (setSentinel fc)).filter
            (fun ds => decide (ds.reference_time.head? = some r)) := by
  induction l with
  | nil =>
    intro acc d h r
    simp [buildDictAux] at h
    subst h; simp
  | cons x xs ih =>
    intro acc d h r
    simp only [buildDictAux] at h
    cases hx : (setSentinel fc x).reference_time.head? with
    | none => rw [hx] at h; cases h
    | some k =>
      rw [hx] at h
      have := ih _ d h r
      rw [this, assocFindD_dictInsert]
      by_cases hk : k = r
      · subst hk
        simp [List.filter, hx]
      · simp [List.filter, hx, hk]

theorem buildDictAux_isSome (fc : Bool) (l : List Dataset) :
    ∀ acc, (∀ ds ∈ l, (setSentinel fc ds).reference_time ≠ []) →
      ∃ d, buildDictAux fc acc l = some d := by
  induction l with
  | nil => intro acc _; exact ⟨acc, rfl⟩
  | cons x xs ih =>
    intro acc hne
    have hx : (setSentinel fc x).reference_time ≠ [] := hne x (by simp)
    cases hh : (setSentinel fc x).reference_time.head? with
    | none =>
      exfalso
      apply hx
      cases hc : (setSentinel fc x).reference_time with
      | nil => rfl
      | cons a as => rw [hc] at hh; simp at hh
    | some r =>
      obtain ⟨d, hd⟩ := ih (dictInsert r (setSentinel fc x) acc)
        (fun ds hds => hne ds (by simp [hds]))
      exact ⟨d, by simp only [buildDictAux]; rw [hh]; exact hd⟩

theorem concatGroups_forall (dict : List (Int × List Dataset)) :
    ∀ fl, concatGroups dict = some fl →
      List.Forall₂ (fun kv dsc => concatTime kv.2 = some dsc) dict fl := by
  induction dict with
  | nil =>
    intro fl h
    simp [concatGroups] at h
    subst h; exact List.Forall₂.nil
  | cons kv rest ih =>
    intro fl h
    simp only [concatGroups] at h
    cases h1 : concatTime kv.2 with
    | none => rw [h1] at h; cases h
    | some dsc =>
      rw [h1] at h
      cases h2 : concatGroups rest with
      | none => rw [h2] at h; cases h
      | some l =>
        rw [h2] at h
        simp at h
        subst h
        exact List.Forall₂.cons h1 (ih l h2)

theorem concatTime_ref {g : List Dataset} {dsc : Dataset}
    (h : concatTime g = some dsc) :
    ∃ d0 rest, g = d0 :: rest ∧ dsc.reference_time = d0.reference_time := by
  cases g with
  | nil => simp [concatTime] at h
  | cons d0 rest =>
    refine ⟨d0, rest, rfl, ?_⟩
    simp only [concatTime] at h
    by_cases hall : rest.all (fun x => x.reference_time = d0.reference_time)
    · rw [if_pos hall] at h
      cases h; rfl
    · rw [if_neg hall] at h; cases h

theorem concatRef_ref {fl : List Dataset} {out : Dataset}
    (h : concatRef fl = some out) :
    out.reference_time = fl.flatMap Dataset.reference_time := by
  cases fl with
  | nil => simp [concatRef] at h
  | cons d rest =>
    simp only [concatRef] at h
    by_cases hall : rest.all (fun x => x.time = d.time)
    · rw [if_pos hall] at h
      cases h; rfl
    · rw [if_neg hall] at h; cases h

theorem flatMap_singleton_keys {dict : List (Int × List Dataset)} {fl : List Dataset}
    (h : List.Forall₂ (fun kv dsc => dsc.reference_time = [kv.1]) dict fl) :
    fl.flatMap Dataset.reference_time = dict.map Prod.fst := by
  induction h with
  | nil => rfl
  | cons hd _ ih => simp [List.flatMap_cons, hd, ih]

theorem setSentinel_false_ref (ds : Dataset) :
    (setSentinel false ds).reference_time = [epochSentinel] := rfl

theorem buildDict_sentinel (l : List Dataset) :
    ∀ g, buildDictAux false [(epochSentinel, g)] l =
      some [(epochSentinel, g ++ l.map (setSentinel false))] := by
  induction l with
  | nil => intro g; simp [buildDictAux]
  | cons x xs ih =>
    intro g
    have hh : (setSentinel false x).reference_time.head? = some epochSentinel := by
      rw [setSentinel_false_ref]; rfl
    have hins : dictInsert epochSentinel (setSentinel false x) [(epochSentinel, g)]
        = [(epochSentinel, g ++ [setSentinel false x])] := by
      simp [dictInsert]
    simp only [buildDictAux]
    rw [hh]
    show buildDictAux false
        (dictInsert epochSentinel (setSentinel false x) [(epochSentinel, g)]) xs = _
    rw [hins, ih]
    simp

theorem concatTime_sentinel (p : Dataset) (rest : List Dataset) :
    concatTime ((p :: rest).map (setSentinel false)) =
      some ⟨[epochSentinel],
            ((p :: rest).map (setSentinel false)).flatMap Dataset.time,
            ((p :: rest).map (setSentinel false)).flatMap Dataset.vals⟩ := by
  simp only [List.map_cons, concatTime]
  rw [if_pos, setSentinel_false_ref]
  rw [List.all_eq_true]
  intro x hx
  rcases List.mem_map.mp hx with ⟨y, _, rfl⟩
  simp [setSentinel_false_ref]

theorem singleton_of_headq_length {l : List Int} {k : Int}
    (h1 : l.head? = some k) (h2 : l.length = 1) : l = [k] := by
  cases l with
  | nil => simp at h1
  | cons a as =>
    simp only [List.head?] at h1
    cases as with
    | nil => simp at h1; rw [h1]
    | cons b bs => simp at h2

theorem forall2_ref_singleton (dict : List (Int × List Dataset)) :
    ∀ fl, DictInv dict →
      (∀ kv ∈ dict, ∀ x ∈ kv.2, x.reference_time.length = 1) →
      List.Forall₂ (fun kv dsc => concatTime kv.2 = some dsc) dict fl →
      List.Forall₂ (fun kv dsc => dsc.reference_time = [kv.1]) dict fl := by
  induction dict with
  | nil => intro fl _ _ hf; cases hf; exact .nil
  | cons kv dict' ih =>
    intro fl hinv hlen hf
    cases hf with
    | cons hR hRs =>
      refine .cons ?_ (ih _ (fun x hx => hinv x (List.mem_cons_of_mem _ hx))
        (fun x hx => hlen x (List.mem_cons_of_mem _ hx)) hRs)
      obtain ⟨d0, rest0, hg, hrefeq⟩ := concatTime_ref hR
      have hmem : d0 ∈ kv.2 := by rw [hg]; simp
      have h1 := (hinv kv (by simp)).2 d0 hmem
      have h2 := hlen kv (by simp) d0 hmem
      rw [hrefeq, singleton_of_headq_length h1 h2]

/-- C3: with `forecast=False`, every opened dataset's `reference_time` is
overwritten with the sentinel `1970-01-01T00:00:00` before grouping, all
files fall into a single reference-time group keyed by the sentinel, and
the Assembled Dataset has exactly one reference_time value, the
sentinel. -/
theorem forecast_flag_normalization (paths : List Dataset)
    (h1 : paths ≠ [])
    (h2 : (paths.map Dataset.reference_time).Nodup) :
    buildDictAux false [] paths =
        some [(epochSentinel, paths.map (setSentinel false))] ∧
      ∃ out, open_nwmdataset paths false = some out ∧
        out.reference_time = [epochSentinel] := by
  obtain ⟨p, rest, rfl⟩ := List.exists_cons_of_ne_nil h1
  have hh : (setSentinel false p).reference_time.head? = some epochSentinel := by
    rw [setSentinel_false_ref]; rfl
  have hbd : buildDictAux false [] (p :: rest) =
      some [(epochSentinel, (p :: rest).map (setSentinel false))] := by
    simp only [buildDictAux]
    rw [hh]
    show buildDictAux false (dictInsert epochSentinel (setSentinel false p) []) rest = _
    have hins : dictInsert epochSentinel (setSentinel false p) []
        = [(epochSentinel, [setSentinel false p])] := rfl
    rw [hins, buildDict_sentinel]
    simp
  refine ⟨hbd, ?_⟩
  unfold open_nwmdataset
  rw [hbd]
  simp only [Option.some_bind, concatGroups, concatTime_sentinel]
  simp [concatRef]

/-- C4: whenever the Forecast Assembler succeeds on files whose
`reference_time` coordinate holds a single instant, the reference_time
axis of the result is exactly the distinct (post-normalization) keys in
the order first encountered by the grouping pass; the final concatenation
does not re-sort them. -/
theorem reference_time_axis_first_seen (paths : List Dataset) (fc : Bool)
    (hs : ∀ ds ∈ paths, ds.reference_time.length = 1)
    (out : Dataset)
    (hout : open_nwmdataset paths fc = some out) :
    out.reference_time = firstSeen ((paths.map (setSentinel fc)).map refKeyD) := by
  unfold open_nwmdataset at hout
  cases hbd : buildDictAux fc [] paths with
  | none => rw [hbd] at hout; cases hout
  | some dict =>
    rw [hbd, Option.some_bind] at hout
    cases hcg : concatGroups dict with
    | none => rw [hcg] at hout; cases hout
    | some fl =>
      rw [hcg, Option.some_bind] at hout
      have href := concatRef_ref hout
      have hinv : DictInv dict :=
        buildDictAux_inv fc paths [] dict (fun kv hkv => by cases hkv) hbd
      have hlen : ∀ kv ∈ dict, ∀ x ∈ kv.2, x.reference_time.length = 1 := by
        refine buildDictAux_pred fc paths [] dict (fun kv hkv => by cases hkv) ?_ hbd
        intro ds0 h0
        cases fc
        · simp [setSentinel]
        · simpa [setSentinel] using hs ds0 h0
      have hforall := concatGroups_forall dict fl hcg
      have hsingle := forall2_ref_singleton dict fl hinv hlen hforall
      have hkeys := buildDictAux_keys fc paths [] dict hbd
      rw [href, flatMap_singleton_keys hsingle, hkeys]
      simp [firstSeen, List.map_map]
      rfl

/-- C8: grouping is stable under permutation of the input files — both
runs succeed and assign, to each reference_time key, the same multiset of
member datasets, while each run's key axis follows its own first-seen
order. -/
theorem grouping_stability (l1 l2 : List Dataset) (fc : Bool)
    (hp : l1.Perm l2)
    (hne : ∀ ds ∈ l1, (setSentinel fc ds).reference_time ≠ []) :
    ∃ d1 d2, buildDictAux fc [] l1 = some d1 ∧ buildDictAux fc [] l2 = some d2 ∧
      (∀ r, (assocFindD r d1).Perm (assocFindD r d2)) ∧
      d1.map Prod.fst = firstSeen (l1.map (fun ds0 => refKeyD (setSentinel fc ds0))) ∧
      d2.map Prod.fst = firstSeen (l2.map (fun ds0 => refKeyD (setSentinel fc ds0))) := by
  obtain ⟨d1, hd1⟩ := buildDictAux_isSome fc l1 [] hne
  obtain ⟨d2, hd2⟩ := buildDictAux_isSome fc l2 []
    (fun ds hds => hne ds (hp.mem_iff.mpr hds))
  refine ⟨d1, d2, hd1, hd2, ?_, ?_, ?_⟩
  · intro r
    rw [buildDictAux_find fc l1 [] d1 hd1 r, buildDictAux_find fc l2 [] d2 hd2 r]
    exact ((hp.map (setSentinel fc)).filter _).append_left _
  · simpa [firstSeen] using buildDictAux_keys fc l1 [] d1 hd1
  · simpa [firstSeen] using buildDictAux_keys fc l2 [] d2 hd2

/-! ## Lemmas: Forcing Relocator -/

theorem mem_insertSorted {α : Type} (key : α → String) (x a : α) :
    ∀ l : List α, a ∈ insertSorted key x l ↔ a = x ∨ a ∈ l := by
  intro l
  induction l with
  | nil => simp [insertSorted]
  | cons y ys ih =>
    simp only [insertSorted]
    split
    · simp [List.mem_cons]
    · rw [List.mem_cons, ih, List.mem_cons]
      tauto

theorem mem_sortByName {α : Type} (key : α → String) (a : α) :
    ∀ l : List α, a ∈ sortByName key l ↔ a ∈ l := by
  intro l
  induction l with
  | nil => simp [sortByName]
  | cons y ys ih =>
    show a ∈ insertSorted key y (sortByName key ys) ↔ _
    rw [mem_insertSorted, ih, List.mem_cons]

theorem seqOut_err_some {o : Out} {e : RelocError} (k : List String → Out)
    (h : o.err = some e) : seqOut o k = ⟨o.acts, o.st, some e⟩ := by
  unfold seqOut
  rw [h]

theorem seqOut_err_none {o : Out} (k : List String → Out)
    (h : o.err = none) :
    seqOut o k = ⟨o.acts ++ (k o.st).acts, (k o.st).st, (k o.st).err⟩ := by
  unfold seqOut
  rw [h]

theorem foldProcess_acts {β : Type} (step : β → List String → Out) :
    ∀ (l : List β) (st : List String) (a : Action),
      a ∈ (foldProcess step l st).acts →
      ∃ b ∈ l, ∃ st', a ∈ (step b st').acts := by
  intro l
  induction l with
  | nil => intro st a ha; simp [foldProcess] at ha
  | cons b rest ih =>
    intro st a ha
    simp only [foldProcess] at ha
    cases herr : (step b st).err with
    | some e =>
      rw [seqOut_err_some _ herr] at ha
      exact ⟨b, by simp, st, ha⟩
    | none =>
      rw [seqOut_err_none _ herr] at ha
      rcases List.mem_append.mp ha with h1 | h1
      · exact ⟨b, by simp, st, h1⟩
      · obtain ⟨b', hb', st', h'⟩ := ih _ a h1
        exact ⟨b', List.mem_cons_of_mem _ hb', st', h'⟩

theorem foldProcess_all_nil {β : Type} (step : β → List String → Out) :
    ∀ (l : List β), (∀ b ∈ l, ∀ st', step b st' = ⟨[], st', none⟩) →
      ∀ st, foldProcess step l st = ⟨[], st, none⟩ := by
  intro l
  induction l with
  | nil => intro _ st; rfl
  | cons b rest ih =>
    intro hall st
    simp only [foldProcess]
    rw [hall b (by simp) st]
    rw [seqOut_err_none _ rfl]
    rw [ih (fun b' hb' => hall b' (List.mem_cons_of_mem _ hb'))]
    simp

theorem foldProcess_err_none_forall {β : Type} (step : β → List String → Out) :
    ∀ (l : List β) (st : List String),
      (foldProcess step l st).err = none →
      ∀ b ∈ l, ∃ st', (step b st').err = none := by
  intro l
  induction l with
  | nil => intro st _ b hb; cases hb
  | cons b0 rest ih =>
    intro st h b hb
    simp only [foldProcess] at h
    cases herr : (step b0 st).err with
    | some e => rw [seqOut_err_some _ herr] at h; cases h
    | none =>
      rw [seqOut_err_none _ herr] at h
      rcases List.mem_cons.mp hb with hb1 | hb1
      · exact ⟨st, by rw [hb1]; exact herr⟩
      · exact ih _ h b hb1

theorem foldProcess_singleton {β : Type} (step : β → List String → Out)
    (b : β) (st : List String) :
    foldProcess step [b] st = step b st := by
  simp only [foldProcess]
  cases herr : (step b st).err with
  | some e => rw [seqOut_err_some _ herr, ← herr]
  | none => rw [seqOut_err_none _ herr, ← herr]; simp [foldProcess]

theorem processFile_acts (range : String) (forcType : Int) (copy : Bool)
    (theDay : Int) (dayName memberName fname : String) (st : List String) :
    ∀ a ∈ (processFile range forcType copy theDay dayName memberName fname st).acts,
      (∃ h, fieldNat fname 1 = some h ∧
        a = .mkdirInit (fmtYMDH (24 * theDay + h))) ∨
      (∃ h c, fieldNat fname 1 = some h ∧ fieldNat fname 4 = some c ∧
        (forcType = 1 ∨ forcType = 2) ∧
        a = .place (fmtYMDH (24 * theDay + h))
              (ldasinName range forcType theDay h c) dayName memberName fname copy) := by
  intro a ha
  unfold processFile at ha
  cases h1 : fieldNat fname 1 with
  | none => rw [h1] at ha; simp at ha
  | some h =>
    rw [h1] at ha
    simp only at ha
    cases h4 : fieldNat fname 4 with
    | none =>
      rw [h4] at ha
      simp only [List.mem_singleton] at ha
      exact Or.inl ⟨h, rfl, ha⟩
    | some c =>
      rw [h4] at ha
      simp only at ha
      by_cases hft : forcType = 1 ∨ forcType = 2
      · rw [if_pos hft] at ha
        split at ha
        next hcopy =>
          rcases List.mem_cons.mp ha with ha1 | ha1
          · exact Or.inl ⟨h, rfl, ha1⟩
          · rw [List.mem_singleton.mp ha1, hcopy]
            exact Or.inr ⟨h, c, rfl, rfl, hft, rfl⟩
        next hcopy =>
          have hc : copy = false := by
            cases copy
            · rfl
            · exact absurd rfl hcopy
          split at ha
          · exact Or.inl ⟨h, rfl, List.mem_singleton.mp ha⟩
          · rcases List.mem_cons.mp ha with ha1 | ha1
            · exact Or.inl ⟨h, rfl, ha1⟩
            · rw [List.mem_singleton.mp ha1, hc]
              exact Or.inr ⟨h, c, rfl, rfl, hft, rfl⟩
      · rw [if_neg hft] at ha
        exact Or.inl ⟨h, rfl, List.mem_singleton.mp ha⟩

theorem processMember_acts (range : String) (forcType : Int) (copy : Bool)
    (theDay : Int) (dayName : String) (m : MemberDir) (st : List String) :
    ∀ a ∈ (processMember range forcType copy theDay dayName m st).acts,
      m.isDir = true ∧ ∃ f ∈ m.files,
        globMatch ("*" ++ reRange range ++ ".forcing.*") f = true ∧
        ∃ st', a ∈ (processFile range forcType copy theDay dayName m.name f st').acts := by
  intro a ha
  unfold processMember at ha
  split at ha
  next hdir =>
    obtain ⟨f, hf, st', ha'⟩ := foldProcess_acts _ _ _ _ ha
    obtain ⟨hfm, hglob⟩ := List.mem_filter.mp hf
    exact ⟨hdir, f, hfm, hglob, st', ha'⟩
  next => simp at ha

theorem processDay_acts (range : String) (forcType : Int) (copy : Bool)
    (dd : DailyDir) (st : List String) :
    ∀ a ∈ (processDay range forcType copy dd st).acts,
      ∃ theDay, parseDay dd.name = some theDay ∧
      ∃ m ∈ dd.members, globMatch ("forcing_" ++ range) m.name = true ∧
        m.isDir = true ∧ ∃ f ∈ m.files,
          globMatch ("*" ++ reRange range ++ ".forcing.*") f = true ∧
          ∃ st', a ∈ (processFile range forcType copy theDay dd.name m.name f st').acts := by
  intro a ha
  unfold processDay at ha
  cases hp : parseDay dd.name with
  | none => rw [hp] at ha; simp at ha
  | some theDay =>
    rw [hp] at ha
    obtain ⟨m, hm, st', ha'⟩ := foldProcess_acts _ _ _ _ ha
    rw [mem_sortByName] at hm
    obtain ⟨hmm, hglob⟩ := List.mem_filter.mp hm
    obtain ⟨hdir, f, hfm, hfglob, st2, ha2⟩ := processMember_acts _ _ _ _ _ _ _ _ ha'
    exact ⟨theDay, rfl, m, hmm, hglob, hdir, f, hfm, hfglob, st2, ha2⟩

theorem relocator_acts (src : NwmSource) (destPresent : Bool) (range0 : String)
    (copy : Bool) (forcType : Int) (pre : List String) :
    ∀ a ∈ (nwm_forcing_to_ldasin src destPresent range0 copy forcType pre).acts,
      a = .mkdirDest ∨ a = .warnNoDays ∨
      ∃ dd ∈ sourceDays src, ∃ st',
        a ∈ (processDay (normRange range0) forcType copy dd st').acts := by
  intro a ha
  unfold nwm_forcing_to_ldasin at ha
  cases src with
  | dirList dirs =>
    simp only at ha
    split at ha
    · rcases List.mem_append.mp ha with h1 | h1
      · left
        split at h1
        · cases h1
        · rw [List.mem_singleton.mp h1]
      · obtain ⟨dd, hdd, st', ha'⟩ := foldProcess_acts _ _ _ _ h1
        exact Or.inr (Or.inr ⟨dd, hdd, st', ha'⟩)
    · left
      split at ha
      · cases ha
      · rw [List.mem_singleton.mp ha]
  | single present entries =>
    simp only at ha
    split at ha
    · rcases List.mem_append.mp ha with h1 | h1
      · rcases List.mem_append.mp h1 with h2 | h2
        · left
          split at h2
          · cases h2
          · rw [List.mem_singleton.mp h2]
        · right; left
          split at h2
          · rw [List.mem_singleton.mp h2]
          · cases h2
      · obtain ⟨dd, hdd, st', ha'⟩ := foldProcess_acts _ _ _ _ h1
        exact Or.inr (Or.inr ⟨dd, hdd, st', ha'⟩)
    · left
      split at ha
      · cases ha
      · rw [List.mem_singleton.mp ha]

/-- Full characterization of the destination entries the Relocator
creates: every `place` action comes from a glob-matched member directory
and forcing file of some discovered day directory, carries the run's copy
flag and a `forc_type` in `{1, 2}`, lands in the directory named by
`init_time = day + init_hour`, and is named by the `valid_time` naming
scheme. -/
theorem place_shape (src : NwmSource) (destPresent : Bool) (range0 : String)
    (copy : Bool) (forcType : Int) (pre : List String)
    (dir fn dn mn f : String) (cp : Bool)
    (ha : Action.place dir fn dn mn f cp ∈
      (nwm_forcing_to_ldasin src destPresent range0 copy forcType pre).acts) :
    cp = copy ∧ (forcType = 1 ∨ forcType = 2) ∧
    globMatch ("forcing_" ++ normRange range0) mn = true ∧
    globMatch ("*" ++ reRange (normRange range0) ++ ".forcing.*") f = true ∧
    ∃ theDay h c, parseDay dn = some theDay ∧
      fieldNat f 1 = some h ∧ fieldNat f 4 = some c ∧
      dir = fmtYMDH (24 * theDay + h) ∧
      fn = ldasinName (normRange range0) forcType theDay h c := by
  rcases relocator_acts src destPresent range0 copy forcType pre _ ha with h1 | h1 | h1
  · cases h1
  · cases h1
  · obtain ⟨dd, _, st', ha'⟩ := h1
    obtain ⟨theDay, hp, m, _, hmglob, hdir, f0, _, hfglob, st2, ha2⟩ :=
      processDay_acts _ _ _ _ _ _ ha'
    rcases processFile_acts _ _ _ _ _ _ _ _ _ ha2 with h2 | h2
    · obtain ⟨h, _, heq⟩ := h2
      cases heq
    · obtain ⟨h, c, hf1, hf4, hft, heq⟩ := h2
      cases heq
      exact ⟨rfl, hft, hmglob, hfglob, theDay, h, c, hp, hf1, hf4, rfl, rfl⟩

/-- The full destination path of a relocated file, relative to the
destination root. -/
def destPathOf (range : String) (forcType : Int) (theDay : Int)
    (initHour castHour : Nat) : String :=
  fmtYMDH (24 * theDay + initHour) ++ "/" ++ ldasinName range forcType theDay initHour castHour

theorem processFile_unsupported (range : String) (forcType : Int) (copy : Bool)
    (theDay : Int) (dayName memberName fname : String) (st : List String)
    (h : Nat) (c : Nat)
    (h1 : fieldNat fname 1 = some h) (h4 : fieldNat fname 4 = some c)
    (hft1 : forcType ≠ 1) (hft2 : forcType ≠ 2) :
    processFile range forcType copy theDay dayName memberName fname st =
      ⟨[.mkdirInit (fmtYMDH (24 * theDay + h))], st, some .unsupportedForcType⟩ := by
  unfold processFile
  simp only [h1, h4]
  rw [if_neg (by rintro (h | h) <;> [exact hft1 h; exact hft2 h])]

theorem processFile_copy (range : String) (forcType : Int)
    (theDay : Int) (dayName memberName fname : String) (st : List String)
    (h : Nat) (c : Nat)
    (h1 : fieldNat fname 1 = some h) (h4 : fieldNat fname 4 = some c)
    (hft : forcType = 1 ∨ forcType = 2) :
    processFile range forcType true theDay dayName memberName fname st =
      ⟨[.mkdirInit (fmtYMDH (24 * theDay + h)),
        .place (fmtYMDH (24 * theDay + h)) (ldasinName range forcType theDay h c)
          dayName memberName fname true],
       if destPathOf range forcType theDay h c ∈ st then st
       else destPathOf range forcType theDay h c :: st, none⟩ := by
  unfold processFile
  simp only [h1, h4]
  rw [if_pos hft]
  simp [destPathOf]

theorem processFile_symlink_exists (range : String) (forcType : Int)
    (theDay : Int) (dayName memberName fname : String) (st : List String)
    (h : Nat) (c : Nat)
    (h1 : fieldNat fname 1 = some h) (h4 : fieldNat fname 4 = some c)
    (hft : forcType = 1 ∨ forcType = 2)
    (hmem : destPathOf range forcType theDay h c ∈ st) :
    processFile range forcType false theDay dayName memberName fname st =
      ⟨[.mkdirInit (fmtYMDH (24 * theDay + h))], st, some .destExists⟩ := by
  unfold processFile
  simp only [h1, h4]
  rw [if_pos hft]
  have hmem2 : fmtYMDH (24 * theDay + h) ++ "/" ++
      ldasinName range forcType theDay h c ∈ st := hmem
  simp [hmem2]

theorem processFile_symlink_new (range : String) (forcType : Int)
    (theDay : Int) (dayName memberName fname : String) (st : List String)
    (h : Nat) (c : Nat)
    (h1 : fieldNat fname 1 = some h) (h4 : fieldNat fname 4 = some c)
    (hft : forcType = 1 ∨ forcType = 2)
    (hmem : destPathOf range forcType theDay h c ∉ st) :
    processFile range forcType false theDay dayName memberName fname st =
      ⟨[.mkdirInit (fmtYMDH (24 * theDay + h)),
        .place (fmtYMDH (24 * theDay + h)) (ldasinName range forcType theDay h c)
          dayName memberName fname false],
       destPathOf range forcType theDay h c :: st, none⟩ := by
  unfold processFile
  simp only [h1, h4]
  rw [if_pos hft]
  have hmem2 : fmtYMDH (24 * theDay + h) ++ "/" ++
      ldasinName range forcType theDay h c ∉ st := hmem
  simp [hmem2, destPathOf]

theorem processFile_err_bad_ft (range : String) (forcType : Int) (copy : Bool)
    (theDay : Int) (dayName memberName fname : String) (st : List String)
    (hft1 : forcType ≠ 1) (hft2 : forcType ≠ 2) :
    (processFile range forcType copy theDay dayName memberName fname st).err ≠ none := by
  unfold processFile
  cases h1 : fieldNat fname 1 with
  | none => simp
  | some h =>
    simp only
    cases h4 : fieldNat fname 4 with
    | none => simp
    | some c =>
      simp only
      rw [if_neg (by rintro (h | h) <;> [exact hft1 h; exact hft2 h])]
      simp

theorem processFiles_err_bad_ft (range : String) (forcType : Int) (copy : Bool)
    (theDay : Int) (dayName memberName : String) (files : List String)
    (st : List String)
    (hft1 : forcType ≠ 1) (hft2 : forcType ≠ 2)
    (herr : (processFiles range forcType copy theDay dayName memberName files st).err
      = none) :
    files = [] := by
  cases files with
  | nil => rfl
  | cons f rest =>
    exfalso
    unfold processFiles foldProcess at herr
    cases he : (processFile range forcType copy theDay dayName memberName f st).err with
    | none =>
      exact processFile_err_bad_ft range forcType copy theDay dayName memberName f st
        hft1 hft2 he
    | some e => rw [seqOut_err_some _ he] at herr; cases herr

theorem processMember_err_bad_ft (range : String) (forcType : Int) (copy : Bool)
    (theDay : Int) (dayName : String) (m : MemberDir) (st : List String)
    (hft1 : forcType ≠ 1) (hft2 : forcType ≠ 2)
    (herr : (processMember range forcType copy theDay dayName m st).err = none) :
    m.isDir = true →
      m.files.filter
        (fun f => globMatch ("*" ++ reRange range ++ ".forcing.*") f) = [] := by
  intro hdir
  unfold processMember at herr
  rw [if_pos hdir] at herr
  exact processFiles_err_bad_ft _ _ _ _ _ _ _ _ hft1 hft2 herr

theorem processDay_err_bad_ft (range : String) (forcType : Int) (copy : Bool)
    (dd : DailyDir) (st : List String)
    (hft1 : forcType ≠ 1) (hft2 : forcType ≠ 2)
    (herr : (processDay range forcType copy dd st).err = none) :
    ∀ m ∈ dd.members, globMatch ("forcing_" ++ range) m.name = true →
      m.isDir = true →
      m.files.filter
        (fun f => globMatch ("*" ++ reRange range ++ ".forcing.*") f) = [] := by
  intro m hm hglob hdir
  unfold processDay at herr
  cases hp : parseDay dd.name with
  | none => rw [hp] at herr; cases herr
  | some theDay =>
    rw [hp] at herr
    have hmem : m ∈ sortByName MemberDir.name
        (dd.members.filter (fun m => globMatch ("forcing_" ++ range) m.name)) := by
      rw [mem_sortByName]
      exact List.mem_filter.mpr ⟨hm, hglob⟩
    obtain ⟨st', herr'⟩ := foldProcess_err_none_forall _ _ _ herr m hmem
    exact processMember_err_bad_ft _ _ _ _ _ _ _ hft1 hft2 herr' hdir

theorem processDays_err_bad_ft (range : String) (forcType : Int) (copy : Bool)
    (days : List DailyDir) (st : List String)
    (hft1 : forcType ≠ 1) (hft2 : forcType ≠ 2)
    (herr : (processDays range forcType copy days st).err = none) :
    ∀ dd ∈ days, ∀ m ∈ dd.members,
      globMatch ("forcing_" ++ range) m.name = true → m.isDir = true →
      m.files.filter
        (fun f => globMatch ("*" ++ reRange range ++ ".forcing.*") f) = [] := by
  intro dd hdd
  obtain ⟨st', herr'⟩ := foldProcess_err_none_forall _ _ _ herr dd hdd
  exact processDay_err_bad_ft _ _ _ _ _ hft1 hft2 herr'

theorem processMember_no_match (range : String) (forcType : Int) (copy : Bool)
    (theDay : Int) (dayName : String) (m : MemberDir)
    (hm : m.isDir = true →
      m.files.filter (fun f => globMatch ("*" ++ reRange range ++ ".forcing.*") f) = []) :
    ∀ st, processMember range forcType copy theDay dayName m st = ⟨[], st, none⟩ := by
  intro st
  unfold processMember
  split
  next hdir =>
    rw [hm hdir]
    rfl
  next => rfl

theorem processDay_no_match (range : String) (forcType : Int) (copy : Bool)
    (dd : DailyDir) (theDay : Int) (hp : parseDay dd.name = some theDay)
    (hnm : ∀ m ∈ dd.members, globMatch ("forcing_" ++ range) m.name = true →
      m.isDir = true →
      m.files.filter (fun f => globMatch ("*" ++ reRange range ++ ".forcing.*") f) = []) :
    ∀ st, processDay range forcType copy dd st = ⟨[], st, none⟩ := by
  intro st
  unfold processDay
  rw [hp]
  refine foldProcess_all_nil _ _ ?_ st
  intro m hm st'
  rw [mem_sortByName] at hm
  obtain ⟨hmm, hglob⟩ := List.mem_filter.mp hm
  exact processMember_no_match _ _ _ _ _ _ (fun hdir => hnm m hmm hglob hdir) st'

theorem processDays_no_match (range : String) (forcType : Int) (copy : Bool)
    (days : List DailyDir)
    (hp : ∀ dd ∈ days, (parseDay dd.name).isSome)
    (hnm : ∀ dd ∈ days, ∀ m ∈ dd.members,
      globMatch ("forcing_" ++ range) m.name = true → m.isDir = true →
      m.files.filter (fun f => globMatch ("*" ++ reRange range ++ ".forcing.*") f) = []) :
    ∀ st, processDays range forcType copy days st = ⟨[], st, none⟩ := by
  intro st
  refine foldProcess_all_nil _ _ ?_ st
  intro dd hdd st'
  obtain ⟨theDay, hthe⟩ := Option.isSome_iff_exists.mp (hp dd hdd)
  exact processDay_no_match _ _ _ _ theDay hthe (hnm dd hdd) st'

/-- Reduction of a run over a single day directory holding a single
matching member directory with a single matching file. -/
theorem processDays_single (range : String) (forcType : Int) (copy : Bool)
    (dn mn f : String) (theDay : Int)
    (hp : parseDay dn = some theDay)
    (hmg : globMatch ("forcing_" ++ range) mn = true)
    (hfg : globMatch ("*" ++ reRange range ++ ".forcing.*") f = true)
    (st : List String) :
    processDays range forcType copy [⟨dn, [⟨mn, true, [f]⟩]⟩] st =
      processFile range forcType copy theDay dn mn f st := by
  have hfilter : List.filter (fun m => globMatch ("forcing_" ++ range) m.name)
      [(⟨mn, true, [f]⟩ : MemberDir)] = [⟨mn, true, [f]⟩] := by
    simp [List.filter, hmg]
  have hsort : sortByName MemberDir.name [(⟨mn, true, [f]⟩ : MemberDir)]
      = [⟨mn, true, [f]⟩] := rfl
  have hfilter2 : List.filter
      (fun f0 => globMatch ("*" ++ reRange range ++ ".forcing.*") f0) [f] = [f] := by
    simp [List.filter, hfg]
  unfold processDays
  rw [foldProcess_singleton]
  unfold processDay
  simp only [hp]
  rw [hfilter, hsort]
  unfold processMembers
  rw [foldProcess_singleton]
  unfold processMember
  simp only [if_pos]
  rw [hfilter2]
  unfold processFiles
  rw [foldProcess_singleton]

/-- Does the source resolution step succeed (all listed directories
exist, resp. the root exists)? -/
def sourceOk : NwmSource → Bool
  | .single present _ => present
  | .dirList dirs => dirs.all (·.1)

theorem relocator_dirList_ok (dirs : List (Bool × DailyDir)) (destP : Bool)
    (range0 : String) (copy : Bool) (ft : Int) (pre : List String)
    (h : dirs.all (·.1) = true) :
    nwm_forcing_to_ldasin (.dirList dirs) destP range0 copy ft pre =
      ⟨(if destP then ([] : List Action) else [.mkdirDest]) ++
        (processDays (normRange range0) ft copy (dirs.map (·.2)) pre).acts,
       (processDays (normRange range0) ft copy (dirs.map (·.2)) pre).st,
       (processDays (normRange range0) ft copy (dirs.map (·.2)) pre).err⟩ := by
  unfold nwm_forcing_to_ldasin
  simp only [sourceDays]
  rw [if_pos h]

theorem relocator_dirList_missing (dirs : List (Bool × DailyDir)) (destP : Bool)
    (range0 : String) (copy : Bool) (ft : Int) (pre : List String)
    (h : ¬ dirs.all (·.1) = true) :
    nwm_forcing_to_ldasin (.dirList dirs) destP range0 copy ft pre =
      ⟨(if destP then ([] : List Action) else [.mkdirDest]), pre,
       some (.fileNotFound "Some requested daily nwm forcing source dirs do not exist")⟩ := by
  unfold nwm_forcing_to_ldasin
  simp only
  rw [if_neg h]

theorem relocator_single_present (entries : List DailyDir) (destP : Bool)
    (range0 : String) (copy : Bool) (ft : Int) (pre : List String) :
    nwm_forcing_to_ldasin (.single true entries) destP range0 copy ft pre =
      ⟨(if destP then ([] : List Action) else [.mkdirDest]) ++
        (if (sourceDays (.single true entries)).isEmpty then [.warnNoDays] else []) ++
        (processDays (normRange range0) ft copy (sourceDays (.single true entries)) pre).acts,
       (processDays (normRange range0) ft copy (sourceDays (.single true entries)) pre).st,
       (processDays (normRange range0) ft copy (sourceDays (.single true entries)) pre).err⟩ := by
  unfold nwm_forcing_to_ldasin
  simp only
  rw [if_pos trivial]

theorem processFile_not_fnf (range : String) (forcType : Int) (copy : Bool)
    (theDay : Int) (dayName memberName fname : String) (st : List String)
    (msg : String) :
    (processFile range forcType copy theDay dayName memberName fname st).err ≠
      some (.fileNotFound msg) := by
  unfold processFile
  repeat' split
  all_goals try simp
  all_goals split_ifs <;> simp

theorem foldProcess_not_fnf {β : Type} (step : β → List String → Out)
    (hstep : ∀ b st' msg, (step b st').err ≠ some (.fileNotFound msg)) :
    ∀ (l : List β) (st : List String) (msg : String),
      (foldProcess step l st).err ≠ some (.fileNotFound msg) := by
  intro l
  induction l with
  | nil => intro st msg; simp [foldProcess]
  | cons b rest ih =>
    intro st msg
    simp only [foldProcess]
    cases he : (step b st).err with
    | some e =>
      rw [seqOut_err_some _ he]
      simp only
      intro hc
      exact hstep b st msg (by rw [he, Option.some_inj.mp hc])
    | none =>
      rw [seqOut_err_none _ he]
      exact ih _ msg

theorem processMember_not_fnf (range : String) (forcType : Int) (copy : Bool)
    (theDay : Int) (dayName : String) (m : MemberDir) (st : List String)
    (msg : String) :
    (processMember range forcType copy theDay dayName m st).err ≠
      some (.fileNotFound msg) := by
  unfold processMember
  split
  · exact foldProcess_not_fnf _
      (fun f st' msg' => processFile_not_fnf _ _ _ _ _ _ _ _ msg') _ _ msg
  · simp

theorem processDay_not_fnf (range : String) (forcType : Int) (copy : Bool)
    (dd : DailyDir) (st : List String) (msg : String) :
    (processDay range forcType copy dd st).err ≠ some (.fileNotFound msg) := by
  unfold processDay
  split
  · simp
  · exact foldProcess_not_fnf _
      (fun m st' msg' => processMember_not_fnf _ _ _ _ _ _ _ msg') _ _ msg

theorem processDays_not_fnf (range : String) (forcType : Int) (copy : Bool)
    (days : List DailyDir) (st : List String) (msg : String) :
    (processDays range forcType copy days st).err ≠ some (.fileNotFound msg) :=
  foldProcess_not_fnf _ (fun _ _ msg' => processDay_not_fnf _ _ _ _ _ msg') _ _ msg

/-! ## Concrete scenarios -/

def mediumFile : String := "nwm.t00z.medium_range.forcing.f003.conus.nc"

def c5day : DailyDir := ⟨"nwm.20200601", [⟨"forcing_medium_range", true, [mediumFile]⟩]⟩

def c5src : NwmSource := .dirList [(true, c5day)]

def hawaiiFile : String := "nwm.t01z.short_range.forcing.f002.hawaii.nc"

def c7src : NwmSource := .dirList [(true, ⟨"nwm.20200601",
  [⟨"forcing_short_range", true, ["nwm.t01z.short_range.forcing.f002.conus.nc"]⟩,
   ⟨"forcing_short_range_hawaii", true, [hawaiiFile]⟩]⟩)]

def emptyMatchSrc : NwmSource := .dirList [(true, ⟨"nwm.20200601",
  [⟨"forcing_medium_range", true, ["readme.txt"]⟩]⟩)]

def missingSrc : NwmSource := .dirList [(false, ⟨"nwm.20200601", []⟩)]

/-- The range categories documented for the `range` argument. -/
def nomadsRanges : List String :=
  ["analysis_assim", "analysis_assim_extend", "analysis_assim_hawaii",
   "medium_range", "short_range", "short_range_hawaii"]

theorem nomadsRange_facts (r : String) (hr : r ∈ nomadsRanges) :
    normRange r = r ∧
      strContains r "analysis_assim" = strStartsWith r "analysis_assim" := by
  fin_cases hr <;> exact ⟨by decide, by decide⟩

/-! ## Claim theorems -/

/-- C1: for every forcing file the Relocator places, with day `D` parsed
from its day directory, init_hour `h` from dot-field 1 and cast_value `c`
from dot-field 4, the destination directory is `D + h` hours formatted
`YYYYMMDDHH`, and the destination filename time is `D + (h - c)` hours
when the (documented) range category starts with `analysis_assim` and
`D + (h + c)` hours otherwise. -/
theorem relocator_round_trip_naming (range0 : String) (hr : range0 ∈ nomadsRanges)
    (src : NwmSource) (destP : Bool) (copy : Bool) (ft : Int) (pre : List String)
    (dir fn dn mn f : String) (cp : Bool)
    (ha : Action.place dir fn dn mn f cp ∈
      (nwm_forcing_to_ldasin src destP range0 copy ft pre).acts) :
    ∃ theDay h c, parseDay dn = some theDay ∧
      fieldNat f 1 = some h ∧ fieldNat f 4 = some c ∧
      dir = fmtYMDH (24 * theDay + h) ∧
      ((ft = 1 ∧ fn = fmtYMDH (if strStartsWith range0 "analysis_assim" then
          24 * theDay + ((h : Int) - c) else 24 * theDay + ((h : Int) + c)) ++
          ".LDASIN_DOMAIN1") ∨
       (ft = 2 ∧ fn = fmtYMDH (if strStartsWith range0 "analysis_assim" then
          24 * theDay + ((h : Int) - c) else 24 * theDay + ((h : Int) + c)) ++
          "00.LDASIN_DOMAIN1")) := by
  obtain ⟨hnorm, hsub⟩ := nomadsRange_facts range0 hr
  obtain ⟨hcp, hft, hmg, hfg, theDay, h, c, hp, h1, h4, hdir, hfn⟩ :=
    place_shape src destP range0 copy ft pre dir fn dn mn f cp ha
  refine ⟨theDay, h, c, hp, h1, h4, hdir, ?_⟩
  rw [hnorm] at hfn
  unfold ldasinName validTime at hfn
  rw [hsub] at hfn
  rcases hft with hft | hft
  · subst hft
    left
    refine ⟨rfl, ?_⟩
    rw [hfn, if_pos rfl]
  · subst hft
    right
    refine ⟨rfl, ?_⟩
    rw [hfn, if_neg (by decide)]

theorem relocator_round_trip_naming_witness :
    ∃ theDay h c, parseDay "nwm.20200601" = some theDay ∧
      fieldNat mediumFile 1 = some h ∧ fieldNat mediumFile 4 = some c ∧
      "2020060100" = fmtYMDH (24 * theDay + h) ∧
      (((1 : Int) = 1 ∧ "2020060103.LDASIN_DOMAIN1" =
          fmtYMDH (if strStartsWith "medium_range" "analysis_assim" then
            24 * theDay + ((h : Int) - c) else 24 * theDay + ((h : Int) + c)) ++
          ".LDASIN_DOMAIN1") ∨
       ((1 : Int) = 2 ∧ "2020060103.LDASIN_DOMAIN1" =
          fmtYMDH (if strStartsWith "medium_range" "analysis_assim" then
            24 * theDay + ((h : Int) - c) else 24 * theDay + ((h : Int) + c)) ++
          "00.LDASIN_DOMAIN1")) :=
  relocator_round_trip_naming "medium_range" (by decide) c5src true false 1 []
    "2020060100" "2020060103.LDASIN_DOMAIN1" "nwm.20200601" "forcing_medium_range"
    mediumFile false (by decide)

/-- C5 counterexample: in the concrete scenario (day `nwm.20200601`,
member `forcing_medium_range`, file
`nwm.t00z.medium_range.forcing.f003.conus.nc`, forc_type 1) the Relocator
produces the destination directory `2020060100`, and no action mentions
the directory `20200600` claimed by the spec. -/
theorem concrete_scenario_counterexample :
    (nwm_forcing_to_ldasin c5src true "medium_range" false 1 []).acts =
      [.mkdirInit "2020060100",
       .place "2020060100" "2020060103.LDASIN_DOMAIN1" "nwm.20200601"
         "forcing_medium_range" mediumFile false] ∧
    ((nwm_forcing_to_ldasin c5src true "medium_range" false 1 []).acts.all
      (fun a => match a with
        | .place d _ _ _ _ _ => decide (d ≠ "20200600")
        | _ => true)) = true := by
  constructor
  · decide
  · decide

/-- C5 amended: the concrete scenario yields destination entry
`2020060100/2020060103.LDASIN_DOMAIN1` (a symlink, `copy=False`) and no
error: the destination directory is `init_time` formatted `%Y%m%d%H`,
i.e. `2020060100`, not `20200600`. -/
theorem concrete_scenario_amended :
    nwm_forcing_to_ldasin c5src true "medium_range" false 1 [] =
      ⟨[.mkdirInit "2020060100",
        .place "2020060100" "2020060103.LDASIN_DOMAIN1" "nwm.20200601"
          "forcing_medium_range" mediumFile false],
       ["2020060100/2020060103.LDASIN_DOMAIN1"], none⟩ := by
  decide

/-- C6 counterexample: with a missing listed day directory the error
message is a fixed string that does not name (list) the missing entry. -/
theorem source_not_found_counterexample :
    (nwm_forcing_to_ldasin missingSrc true "medium_range" false 1 []).err =
      some (.fileNotFound "Some requested daily nwm forcing source dirs do not exist") ∧
    strContains "Some requested daily nwm forcing source dirs do not exist"
      "nwm.20200601" = false := by
  constructor
  · decide
  · decide

/-- C6 amended: when the source is an explicit list and some listed
directory does not exist, the call fails with a `FileNotFoundError`
carrying a fixed message that does not enumerate the missing entries;
when all listed directories exist, no file-not-found error is raised. -/
theorem source_not_found_amended (dirs : List (Bool × DailyDir)) (destP : Bool)
    (range0 : String) (copy : Bool) (ft : Int) (pre : List String) :
    (¬ dirs.all (·.1) = true →
      (nwm_forcing_to_ldasin (.dirList dirs) destP range0 copy ft pre).err =
        some (.fileNotFound "Some requested daily nwm forcing source dirs do not exist")) ∧
    (dirs.all (·.1) = true → ∀ msg,
      (nwm_forcing_to_ldasin (.dirList dirs) destP range0 copy ft pre).err ≠
        some (.fileNotFound msg)) := by
  constructor
  · intro h
    rw [relocator_dirList_missing dirs destP range0 copy ft pre h]
  · intro h msg
    rw [relocator_dirList_ok dirs destP range0 copy ft pre h]
    exact processDays_not_fnf _ _ _ _ _ msg

theorem source_not_found_amended_witness :
    (nwm_forcing_to_ldasin missingSrc true "medium_range" false 1 []).err =
        some (.fileNotFound "Some requested daily nwm forcing source dirs do not exist") ∧
      (nwm_forcing_to_ldasin c5src true "medium_range" false 1 []).err ≠
        some (.fileNotFound "Some requested daily nwm forcing source dirs do not exist") :=
  ⟨(source_not_found_amended [(false, ⟨"nwm.20200601", []⟩)] true "medium_range"
      false 1 []).1 (by decide),
   (source_not_found_amended [(true, c5day)] true "medium_range" false 1 []).2
      (by decide) "Some requested daily nwm forcing source dirs do not exist"⟩

/-- C7: with range `short_range_hawaii`, every placed file was selected
by the suffix-stripped filename pattern `*short_range.forcing.*` while
its member directory was discovered by the full Hawaii glob
`forcing_short_range_hawaii`; concretely, the Hawaii member's file is
placed and nothing is taken from the non-Hawaii member
`forcing_short_range`. -/
theorem hawaii_suffix_stripping :
    (∀ (src : NwmSource) (destP : Bool) (copy : Bool) (ft : Int) (pre : List String)
       (dir fn dn mn f : String) (cp : Bool),
       Action.place dir fn dn mn f cp ∈
         (nwm_forcing_to_ldasin src destP "short_range_hawaii" copy ft pre).acts →
       globMatch "*short_range.forcing.*" f = true ∧
       globMatch "forcing_short_range_hawaii" mn = true) ∧
    Action.place "2020060101" "2020060103.LDASIN_DOMAIN1" "nwm.20200601"
        "forcing_short_range_hawaii" hawaiiFile false ∈
      (nwm_forcing_to_ldasin c7src true "short_range_hawaii" false 1 []).acts ∧
    ((nwm_forcing_to_ldasin c7src true "short_range_hawaii" false 1 []).acts.all
      (fun a => match a with
        | .place _ _ _ mn _ _ => decide (mn ≠ "forcing_short_range")
        | _ => true)) = true := by
  refine ⟨?_, by decide, by decide⟩
  intro src destP copy ft pre dir fn dn mn f cp ha
  obtain ⟨_, _, hmg, hfg, _⟩ :=
    place_shape src destP "short_range_hawaii" copy ft pre dir fn dn mn f cp ha
  constructor
  · have he : ("*" ++ reRange (normRange "short_range_hawaii") ++ ".forcing.*")
        = "*short_range.forcing.*" := by decide
    rw [he] at hfg
    exact hfg
  · have he : ("forcing_" ++ normRange "short_range_hawaii")
        = "forcing_short_range_hawaii" := by decide
    rw [he] at hmg
    exact hmg

theorem hawaii_suffix_stripping_witness :
    globMatch "*short_range.forcing.*" hawaiiFile = true ∧
    globMatch "forcing_short_range_hawaii" "forcing_short_range_hawaii" = true :=
  hawaii_suffix_stripping.1 c7src true false 1 [] "2020060101"
    "2020060103.LDASIN_DOMAIN1" "nwm.20200601" "forcing_short_range_hawaii"
    hawaiiFile false (by decide)

/-- C2 counterexample: a call with `forc_type=3` (outside `{1, 2}`) whose
discovery matches no forcing files completes without any error, so such a
call does not "fail with UnsupportedFormat". -/
theorem forc_type_failure_counterexample :
    (nwm_forcing_to_ldasin emptyMatchSrc true "medium_range" false 3 []).err = none ∧
    (3 : Int) ≠ 1 ∧ (3 : Int) ≠ 2 := by
  refine ⟨by decide, by decide, by decide⟩

/-- C2 amended: `forc_type=1` names destination files
`%Y%m%d%H.LDASIN_DOMAIN1` (no minute field) and `forc_type=2` names them
`%Y%m%d%H00.LDASIN_DOMAIN1`; a `forc_type` outside `{1, 2}` creates no
destination file entries, and such a call can only complete without
error when no forcing file was matched (the validation sits inside the
per-file loop). -/
theorem forc_type_boundary_amended (src : NwmSource) (destP : Bool) (range0 : String)
    (copy : Bool) (ft : Int) (pre : List String) :
    (∀ dir fn dn mn f cp,
      Action.place dir fn dn mn f cp ∈
          (nwm_forcing_to_ldasin src destP range0 copy ft pre).acts →
        (ft = 1 → ∃ t, fn = fmtYMDH t ++ ".LDASIN_DOMAIN1") ∧
        (ft = 2 → ∃ t, fn = fmtYMDH t ++ "00.LDASIN_DOMAIN1")) ∧
    (ft ≠ 1 → ft ≠ 2 →
      (∀ dir fn dn mn f cp,
        Action.place dir fn dn mn f cp ∉
          (nwm_forcing_to_ldasin src destP range0 copy ft pre).acts) ∧
      ((nwm_forcing_to_ldasin src destP range0 copy ft pre).err = none →
        ∀ dd ∈ sourceDays src, ∀ m ∈ dd.members,
          globMatch ("forcing_" ++ normRange range0) m.name = true →
          m.isDir = true →
          m.files.filter
            (fun f => globMatch ("*" ++ reRange (normRange range0) ++ ".forcing.*") f)
            = [])) := by
  constructor
  · intro dir fn dn mn f cp ha
    obtain ⟨_, _, _, _, theDay, h, c, _, _, _, _, hfn⟩ :=
      place_shape src destP range0 copy ft pre dir fn dn mn f cp ha
    constructor
    · intro hft1
      subst hft1
      refine ⟨validTime (normRange range0) theDay h c, ?_⟩
      rw [hfn]
      unfold ldasinName
      rw [if_pos rfl]
    · intro hft2
      subst hft2
      refine ⟨validTime (normRange range0) theDay h c, ?_⟩
      rw [hfn]
      unfold ldasinName
      rw [if_neg (by decide)]
  · intro hft1 hft2
    constructor
    · intro dir fn dn mn f cp ha
      obtain ⟨_, hft, _⟩ :=
        place_shape src destP range0 copy ft pre dir fn dn mn f cp ha
      rcases hft with hx | hx
      · exact hft1 hx
      · exact hft2 hx
    · intro herr
      cases src with
      | dirList dirs =>
        by_cases hall : dirs.all (·.1) = true
        · rw [relocator_dirList_ok dirs destP range0 copy ft pre hall] at herr
          intro dd hdd
          exact processDays_err_bad_ft _ _ _ _ _ hft1 hft2 herr dd hdd
        · rw [relocator_dirList_missing dirs destP range0 copy ft pre hall] at herr
          cases herr
      | single present entries =>
        cases present with
        | true =>
          rw [relocator_single_present entries destP range0 copy ft pre] at herr
          intro dd hdd
          exact processDays_err_bad_ft _ _ _ _ _ hft1 hft2 herr dd hdd
        | false =>
          unfold nwm_forcing_to_ldasin at herr
          simp at herr

theorem forc_type_boundary_amended_witness :
    (((1 : Int) = 1 → ∃ t, "2020060103.LDASIN_DOMAIN1" = fmtYMDH t ++ ".LDASIN_DOMAIN1") ∧
     ((1 : Int) = 2 → ∃ t, "2020060103.LDASIN_DOMAIN1" = fmtYMDH t ++ "00.LDASIN_DOMAIN1")) ∧
    (∀ dir fn dn mn f cp, Action.place dir fn dn mn f cp ∉
        (nwm_forcing_to_ldasin emptyMatchSrc true "medium_range" false 3 []).acts) :=
  ⟨(forc_type_boundary_amended c5src true "medium_range" false 1 []).1
      "2020060100" "2020060103.LDASIN_DOMAIN1" "nwm.20200601" "forcing_medium_range"
      mediumFile false (by decide),
   ((forc_type_boundary_amended emptyMatchSrc true "medium_range" false 3 []).2
      (by decide) (by decide)).1⟩

theorem processFile_copy_err (range : String) (forcType : Int) (theDay : Int)
    (dayName memberName fname : String) (st : List String) :
    (processFile range forcType true theDay dayName memberName fname st).err ≠
      some .destExists := by
  unfold processFile
  repeat' split
  all_goals simp_all

theorem foldProcess_err_ne {β : Type} (step : β → List String → Out)
    (bad : RelocError) (hstep : ∀ b st', (step b st').err ≠ some bad) :
    ∀ (l : List β) (st : List String),
      (foldProcess step l st).err ≠ some bad := by
  intro l
  induction l with
  | nil => intro st; simp [foldProcess]
  | cons b rest ih =>
    intro st
    simp only [foldProcess]
    cases he : (step b st).err with
    | some e =>
      rw [seqOut_err_some _ he]
      simp only
      intro hc
      exact hstep b st (by rw [he, Option.some_inj.mp hc])
    | none =>
      rw [seqOut_err_none _ he]
      exact ih _

theorem processMember_copy_err (range : String) (forcType : Int) (theDay : Int)
    (dayName : String) (m : MemberDir) (st : List String) :
    (processMember range forcType true theDay dayName m st).err ≠
      some .destExists := by
  unfold processMember
  split
  · exact foldProcess_err_ne _ _
      (fun f st' => processFile_copy_err _ _ _ _ _ _ _) _ _
  · simp

theorem processDay_copy_err (range : String) (forcType : Int)
    (dd : DailyDir) (st : List String) :
    (processDay range forcType true dd st).err ≠ some .destExists := by
  unfold processDay
  split
  · simp
  · exact foldProcess_err_ne _ _
      (fun m st' => processMember_copy_err _ _ _ _ _ _) _ _

theorem relocator_copy_err (src : NwmSource) (destP : Bool) (range0 : String)
    (forcType : Int) (pre : List String) :
    (nwm_forcing_to_ldasin src destP range0 true forcType pre).err ≠
      some .destExists := by
  have hdays : ∀ (days : List DailyDir) (st : List String),
      (processDays (normRange range0) forcType true days st).err ≠ some .destExists :=
    foldProcess_err_ne _ _ (fun dd st' => processDay_copy_err _ _ _ _)
  cases src with
  | dirList dirs =>
    by_cases hall : dirs.all (·.1) = true
    · rw [relocator_dirList_ok dirs destP range0 true forcType pre hall]
      exact hdays _ _
    · rw [relocator_dirList_missing dirs destP range0 true forcType pre hall]
      simp
  | single present entries =>
    cases present with
    | true =>
      rw [relocator_single_present entries destP range0 true forcType pre]
      exact hdays _ _
    | false =>
      unfold nwm_forcing_to_ldasin
      simp

/-- C9: for a matching file whose computed destination entry already
exists, a `copy=True` run replaces it and succeeds (the `place` is
performed and no error is raised), while a `copy=False` run fails with
`FileExistsError` from symlink creation and performs no `place`;
moreover no `copy=True` call ever fails with the destination-exists
error. -/
theorem overwrite_behaviour (range0 dn mn f : String) (theDay : Int) (h c : Nat)
    (ft : Int) (destP : Bool) (pre : List String)
    (hp : parseDay dn = some theDay)
    (hmg : globMatch ("forcing_" ++ normRange range0) mn = true)
    (hfg : globMatch ("*" ++ reRange (normRange range0) ++ ".forcing.*") f = true)
    (h1 : fieldNat f 1 = some h) (h4 : fieldNat f 4 = some c)
    (hft : ft = 1 ∨ ft = 2)
    (hpre : destPathOf (normRange range0) ft theDay h c ∈ pre) :
    ((nwm_forcing_to_ldasin (.dirList [(true, ⟨dn, [⟨mn, true, [f]⟩]⟩)])
        destP range0 true ft pre).err = none ∧
      Action.place (fmtYMDH (24 * theDay + h))
          (ldasinName (normRange range0) ft theDay h c) dn mn f true ∈
        (nwm_forcing_to_ldasin (.dirList [(true, ⟨dn, [⟨mn, true, [f]⟩]⟩)])
          destP range0 true ft pre).acts) ∧
    ((nwm_forcing_to_ldasin (.dirList [(true, ⟨dn, [⟨mn, true, [f]⟩]⟩)])
        destP range0 false ft pre).err = some .destExists ∧
      ∀ dir fn dn2 mn2 f2 cp, Action.place dir fn dn2 mn2 f2 cp ∉
        (nwm_forcing_to_ldasin (.dirList [(true, ⟨dn, [⟨mn, true, [f]⟩]⟩)])
          destP range0 false ft pre).acts) ∧
    (∀ (src : NwmSource) (destP2 : Bool) (range2 : String) (ft2 : Int)
       (pre2 : List String),
      (nwm_forcing_to_ldasin src destP2 range2 true ft2 pre2).err ≠
        some .destExists) := by
  have hall : List.all [(true, (⟨dn, [⟨mn, true, [f]⟩]⟩ : DailyDir))] (·.1) = true := rfl
  have hmap : List.map (·.2) [(true, (⟨dn, [⟨mn, true, [f]⟩]⟩ : DailyDir))]
      = [(⟨dn, [⟨mn, true, [f]⟩]⟩ : DailyDir)] := rfl
  refine ⟨?_, ?_, fun src destP2 range2 ft2 pre2 =>
    relocator_copy_err src destP2 range2 ft2 pre2⟩
  · rw [relocator_dirList_ok _ destP range0 true ft pre hall, hmap,
        processDays_single _ ft true dn mn f theDay hp hmg hfg,
        processFile_copy _ ft theDay dn mn f pre h c h1 h4 hft]
    exact ⟨rfl, by simp⟩
  · rw [relocator_dirList_ok _ destP range0 false ft pre hall, hmap,
        processDays_single _ ft false dn mn f theDay hp hmg hfg,
        processFile_symlink_exists _ ft theDay dn mn f pre h c h1 h4 hft hpre]
    refine ⟨rfl, ?_⟩
    intro dir fn dn2 mn2 f2 cp hmem
    simp only at hmem
    rcases List.mem_append.mp hmem with hx | hx
    · cases destP
      · simp at hx
      · simp at hx
    · simp at hx

theorem overwrite_behaviour_witness :
    ((nwm_forcing_to_ldasin (.dirList [(true, ⟨"nwm.20200601",
          [⟨"forcing_medium_range", true, [mediumFile]⟩]⟩)])
        true "medium_range" true 1
        ["2020060100/2020060103.LDASIN_DOMAIN1"]).err = none ∧
      Action.place (fmtYMDH (24 * 18414 + (0 : Nat)))
          (ldasinName (normRange "medium_range") 1 18414 0 3)
          "nwm.20200601" "forcing_medium_range" mediumFile true ∈
        (nwm_forcing_to_ldasin (.dirList [(true, ⟨"nwm.20200601",
            [⟨"forcing_medium_range", true, [mediumFile]⟩]⟩)])
          true "medium_range" true 1
          ["2020060100/2020060103.LDASIN_DOMAIN1"]).acts) ∧
    ((nwm_forcing_to_ldasin (.dirList [(true, ⟨"nwm.20200601",
          [⟨"forcing_medium_range", true, [mediumFile]⟩]⟩)])
        true "medium_range" false 1
        ["2020060100/2020060103.LDASIN_DOMAIN1"]).err = some .destExists ∧
      ∀ dir fn dn2 mn2 f2 cp, Action.place dir fn dn2 mn2 f2 cp ∉
        (nwm_forcing_to_ldasin (.dirList [(true, ⟨"nwm.20200601",
            [⟨"forcing_medium_range", true, [mediumFile]⟩]⟩)])
          true "medium_range" false 1
          ["2020060100/2020060103.LDASIN_DOMAIN1"]).acts) ∧
    (nwm_forcing_to_ldasin c5src true "medium_range" true 1 []).err ≠
      some .destExists :=
  ⟨(overwrite_behaviour "medium_range" "nwm.20200601" "forcing_medium_range" mediumFile
      18414 0 3 1 true ["2020060100/2020060103.LDASIN_DOMAIN1"]
      (by decide) (by decide) (by decide) (by decide) (by decide)
      (Or.inl rfl) (by decide)).1,
   (overwrite_behaviour "medium_range" "nwm.20200601" "forcing_medium_range" mediumFile
      18414 0 3 1 true ["2020060100/2020060103.LDASIN_DOMAIN1"]
      (by decide) (by decide) (by decide) (by decide) (by decide)
      (Or.inl rfl) (by decide)).2.1,
   (overwrite_behaviour "medium_range" "nwm.20200601" "forcing_medium_range" mediumFile
      18414 0 3 1 true ["2020060100/2020060103.LDASIN_DOMAIN1"]
      (by decide) (by decide) (by decide) (by decide) (by decide)
      (Or.inl rfl) (by decide)).2.2 c5src true "medium_range" 1 []⟩

/-- C10: the `forc_type` value is validated only inside the per-file
loop — a call with `forc_type` outside `{1, 2}`, a resolvable source,
parseable day names and zero matching forcing files returns without any
error; and when one matching file (with parseable fields) is processed,
the init_time destination subdirectory is created and only then the
UnsupportedFormat error is raised. -/
theorem forc_type_loop_validation :
    (∀ (src : NwmSource) (destP : Bool) (range0 : String) (copy : Bool)
       (ft : Int) (pre : List String),
      ft ≠ 1 → ft ≠ 2 → sourceOk src = true →
      (∀ dd ∈ sourceDays src, (parseDay dd.name).isSome = true) →
      (∀ dd ∈ sourceDays src, ∀ m ∈ dd.members,
        globMatch ("forcing_" ++ normRange range0) m.name = true → m.isDir = true →
        m.files.filter
          (fun f => globMatch ("*" ++ reRange (normRange range0) ++ ".forcing.*") f)
          = []) →
      (nwm_forcing_to_ldasin src destP range0 copy ft pre).err = none) ∧
    (∀ (range0 dn mn f : String) (theDay : Int) (h c : Nat) (ft : Int)
       (destP copy : Bool) (pre : List String),
      parseDay dn = some theDay →
      globMatch ("forcing_" ++ normRange range0) mn = true →
      globMatch ("*" ++ reRange (normRange range0) ++ ".forcing.*") f = true →
      fieldNat f 1 = some h → fieldNat f 4 = some c →
      ft ≠ 1 → ft ≠ 2 →
      nwm_forcing_to_ldasin (.dirList [(true, ⟨dn, [⟨mn, true, [f]⟩]⟩)])
          destP range0 copy ft pre =
        ⟨(if destP then ([] : List Action) else [.mkdirDest]) ++
          [.mkdirInit (fmtYMDH (24 * theDay + h))], pre, some .unsupportedForcType⟩) := by
  constructor
  · intro src destP range0 copy ft pre _ _ hok hparse hnm
    cases src with
    | dirList dirs =>
      rw [relocator_dirList_ok dirs destP range0 copy ft pre hok]
      simp only [sourceDays] at hparse hnm
      rw [processDays_no_match (normRange range0) ft copy _ hparse hnm pre]
    | single present entries =>
      have hpres : present = true := hok
      subst hpres
      rw [relocator_single_present entries destP range0 copy ft pre]
      rw [processDays_no_match (normRange range0) ft copy _ hparse hnm pre]
  · intro range0 dn mn f theDay h c ft destP copy pre hp hmg hfg h1 h4 hft1 hft2
    have hall : List.all [(true, (⟨dn, [⟨mn, true, [f]⟩]⟩ : DailyDir))] (·.1) = true := rfl
    have hmap : List.map (·.2) [(true, (⟨dn, [⟨mn, true, [f]⟩]⟩ : DailyDir))]
        = [(⟨dn, [⟨mn, true, [f]⟩]⟩ : DailyDir)] := rfl
    rw [relocator_dirList_ok _ destP range0 copy ft pre hall, hmap,
        processDays_single _ ft copy dn mn f theDay hp hmg hfg,
        processFile_unsupported _ ft copy theDay dn mn f pre h c h1 h4 hft1 hft2]

theorem forc_type_loop_validation_witness :
    (nwm_forcing_to_ldasin emptyMatchSrc true "medium_range" false 3 []).err = none ∧
    nwm_forcing_to_ldasin (.dirList [(true, ⟨"nwm.20200601",
        [⟨"forcing_medium_range", true, [mediumFile]⟩]⟩)]) true "medium_range" false 3 [] =
      ⟨(if true then ([] : List Action) else [.mkdirDest]) ++
        [.mkdirInit (fmtYMDH (24 * 18414 + (0 : Nat)))], [], some .unsupportedForcType⟩ :=
  ⟨forc_type_loop_validation.1 emptyMatchSrc true "medium_range" false 3 []
      (by decide) (by decide) (by decide) (by decide) (by decide),
   forc_type_loop_validation.2 "medium_range" "nwm.20200601" "forcing_medium_range"
      mediumFile 18414 0 3 3 true false [] (by decide) (by decide) (by decide)
      (by decide) (by decide) (by decide) (by decide)⟩

/-! ## Assembler scenario data and witnesses -/

def dsA : Dataset := ⟨[5], [1], [9]⟩

def dsB : Dataset := ⟨[7], [1], [8]⟩

def dsC : Dataset := ⟨[5], [2], [6]⟩

def dsPair : List Dataset := [dsA, dsB]

def dsL1 : List Dataset := [dsA, dsB, dsC]

def dsL2 : List Dataset := [dsC, dsB, dsA]

theorem forecast_flag_normalization_witness :
    buildDictAux false [] dsPair =
        some [(epochSentinel, dsPair.map (setSentinel false))] ∧
      ∃ out, open_nwmdataset dsPair false = some out ∧
        out.reference_time = [epochSentinel] :=
  forecast_flag_normalization dsPair (by decide) (by decide)

theorem reference_time_axis_first_seen_witness :
    (⟨[5, 7], [1], [9, 8]⟩ : Dataset).reference_time =
      firstSeen ((dsPair.map (setSentinel true)).map refKeyD) :=
  reference_time_axis_first_seen dsPair true (by decide) ⟨[5, 7], [1], [9, 8]⟩
    (by decide)

theorem grouping_stability_witness :
    ∃ d1 d2, buildDictAux true [] dsL1 = some d1 ∧ buildDictAux true [] dsL2 = some d2 ∧
      (∀ r, (assocFindD r d1).Perm (assocFindD r d2)) ∧
      d1.map Prod.fst = firstSeen (dsL1.map (fun ds0 => refKeyD (setSentinel true ds0))) ∧
      d2.map Prod.fst = firstSeen (dsL2.map (fun ds0 => refKeyD (setSentinel true ds0))) :=
  grouping_stability dsL1 dsL2 true (by decide) (by decide)

end WrfHydro
